import Mathlib

/-!
# Verification of the KoteksWords vocabulary application

Shallow embedding of `src/App.tsx`: a browser vocabulary app with a word
list, case-folded substring search, category filtering, locale-sorted
display, and a ten-question multiple-choice quiz.

JavaScript strings are modelled as Lean `String`s; the handful of string
primitives the app uses (`trim`, `toLowerCase`, `includes`,
`localeCompare`) are given explicit definitions over the character lists,
restricted to the character repertoire of the application (ASCII plus the
Croatian letters š, č, ć, ž, đ and their capitals).

`Math.random` is modelled by threading an explicit stream of natural
numbers `Nat → Nat` through the quiz-generation functions; a draw
`Math.floor(Math.random() * n)` at stream position `k` is modelled as
`s k % n`.
-/

open scoped List

/-- Whitespace test used by the model of `String.prototype.trim`. -/
def isJsSpace (c : Char) : Bool := c.isWhitespace

/-- Model of `String.prototype.toLowerCase`, restricted to the repertoire
of the application: ASCII letters plus the Croatian capitals. -/
def jsLowerChar (c : Char) : Char :=
  if c = 'Š' then 'š'
  else if c = 'Č' then 'č'
  else if c = 'Ć' then 'ć'
  else if c = 'Ž' then 'ž'
  else if c = 'Đ' then 'đ'
  else c.toLower

/-- Model of `String.prototype.trim`: drop whitespace from both ends. -/
def jsTrim (s : String) : String :=
  String.mk ((s.toList.dropWhile isJsSpace).rdropWhile isJsSpace)

/-- Model of `String.prototype.toLowerCase` lifted to strings. -/
def jsLower (s : String) : String :=
  String.mk (s.toList.map jsLowerChar)

/-- `beginsWith hay needle`: does `hay` start with `needle`? -/
def beginsWith : List Char → List Char → Bool
  | _, [] => true
  | [], _ :: _ => false
  | a :: as, b :: bs => a == b && beginsWith as bs

/-- `containsSub needle hay`: does `needle` occur contiguously in `hay`?
Model of `String.prototype.includes`. -/
def containsSub (needle : List Char) : List Char → Bool
  | [] => beginsWith [] needle
  | a :: t => beginsWith (a :: t) needle || containsSub needle t

/-- Model of `hay.includes(needle)` on strings. -/
def jsIncludes (hay needle : String) : Bool :=
  containsSub needle.toList hay.toList

/-- One glossary record, from the `WordEntry` type of `App.tsx`:
`id`, `en`, `hr` and `category` are required fields, the remaining
translations and the level are optional. -/
structure WordEntry where
  id : String
  en : String
  hr : String
  hi : Option String := none
  ta : Option String := none
  te : Option String := none
  bn : Option String := none
  es : Option String := none
  category : String
  level : Option Nat := none
deriving DecidableEq

/-- The six translation languages offered by `translationOptions`. -/
inductive TranslationKey where
  | en | es | hi | ta | te | bn
deriving DecidableEq

/-- Field access `word[key]` for a translation key.  `en` is a required
field, so the lookup always succeeds there. -/
def getField (w : WordEntry) : TranslationKey → Option String
  | .en => some w.en
  | .es => w.es
  | .hi => w.hi
  | .ta => w.ta
  | .te => w.te
  | .bn => w.bn

/-- `getTranslationForQuiz` from `App.tsx`:
`(word[key]?.trim() ?? word.en?.trim() ?? '').trim()`.
The `?? ''` branch is unreachable in the model because `en` is a required
field of `WordEntry`. -/
def getTranslationForQuiz (w : WordEntry) (key : TranslationKey) : String :=
  jsTrim (((getField w key).map jsTrim).getD (jsTrim w.en))

/-- The searchable fields `[hr, en, es, hi, ta, te, bn].filter(Boolean)`
of a word: present fields only, empty strings dropped (both are falsy). -/
def searchFields (w : WordEntry) : List String :=
  ([some w.hr, some w.en, w.es, w.hi, w.ta, w.te, w.bn].filterMap id).filter
    (fun s => !s.isEmpty)

/-- The `searchable` string of `filteredWords`: the fields joined by a
single space. -/
def searchable (w : WordEntry) : String :=
  String.intercalate " " (searchFields w)

/-- The filter predicate of `filteredWords` in `App.tsx`: category test
plus, when the trimmed lowercased query is nonempty, a substring test
against the lowercased searchable string. -/
def matchesFilter (activeCategory query : String) (w : WordEntry) : Bool :=
  let normalizedQuery := jsLower (jsTrim query)
  let matchesCategory := activeCategory == "All" || w.category == activeCategory
  if normalizedQuery.isEmpty then matchesCategory
  else matchesCategory && jsIncludes (jsLower (searchable w)) normalizedQuery

/-- Case folding followed by diacritic stripping, the base-sensitivity
fold of the modelled collation. -/
def foldBase (s : String) : String :=
  String.mk (s.toList.map (fun c =>
    let l := jsLowerChar c
    if l = 'š' then 's'
    else if l = 'č' then 'c'
    else if l = 'ć' then 'c'
    else if l = 'ž' then 'z'
    else l))

/-- Modelled from the spec: `a.localeCompare(b, 'hr', { sensitivity: 'base' })`
is a browser collation API whose implementation is not part of the
repository; per the spec it is a case-insensitive, accent-insensitive
total comparison, modelled here as comparing the case-folded,
diacritic-stripped strings. -/
def localeCompareHrBase (a b : String) : Int :=
  if foldBase a < foldBase b then -1
  else if foldBase b < foldBase a then 1
  else 0

/-- `filteredWords` from `App.tsx` (parameterised by the word list): the
entries passing `matchesFilter`, sorted by the Croatian headword under the
modelled locale comparison.  `Array.prototype.sort` with a consistent
comparator is modelled by stable merge sort. -/
def filteredWords (activeCategory query : String) (ws : List WordEntry) :
    List WordEntry :=
  (ws.filter (matchesFilter activeCategory query)).mergeSort
    (fun a b => decide (localeCompareHrBase a.hr b.hr ≤ 0))

/-- The word-card translation text of the render function:
`word[translation]?.trim() ? word[translation] : word.en?.trim() ? word.en : '—'`. -/
def cardText (w : WordEntry) (k : TranslationKey) : String :=
  match getField w k with
  | some t => if !(jsTrim t).isEmpty then t
              else if !(jsTrim w.en).isEmpty then w.en else "—"
  | none => if !(jsTrim w.en).isEmpty then w.en else "—"

/-- A stream of random draws standing for successive `Math.random` calls. -/
def RandStream : Type := Nat → Nat

/-- One destructuring swap `[a[i], a[j]] = [a[j], a[i]]`; indices out of
range leave the list unchanged (they never are at the call sites). -/
def listSwap (l : List α) (i j : Nat) : List α :=
  match l.get? i, l.get? j with
  | some a, some b => (l.set i b).set j a
  | _, _ => l

/-- The loop of `shuffleArray`, from loop variable `i = n` down to `1`,
drawing from stream `s` starting at position `k`:
`j = Math.floor(Math.random() * (i + 1))` is `s k % (i + 1)`. -/
def shuffleFrom (s : RandStream) (k : Nat) (l : List α) : Nat → List α
  | 0 => l
  | i + 1 => shuffleFrom s (k + 1) (listSwap l (i + 1) (s k % (i + 2))) i

/-- `shuffleArray` from `App.tsx`: Fisher–Yates on a clone, consuming
`l.length - 1` draws from stream `s` starting at position `k`. -/
def shuffleArray (s : RandStream) (k : Nat) (l : List α) : List α :=
  shuffleFrom s k l (l.length - 1)

/-- `Array.from(new Set(xs))`: deduplication keeping first occurrences;
`seen` is the set of values already inserted. -/
def setDedupAux (seen : List String) : List String → List String
  | [] => []
  | a :: rest =>
    if a ∈ seen then setDedupAux seen rest
    else a :: setDedupAux (a :: seen) rest

/-- `Array.from(new Set(xs))`: deduplication keeping first occurrences. -/
def setDedup (l : List String) : List String := setDedupAux [] l

/-- One quiz question: the sampled word, the four options, and the index
of the correct option. -/
structure QuizQuestion where
  word : WordEntry
  options : List String
  correctIndex : Nat
deriving DecidableEq

/-- The question-building loop of `buildQuizQuestions`
(`selectedWords.map (word => ...)`), threading the random stream: the
accumulated draw position is returned alongside the questions. -/
def buildLoop (s : RandStream) (language : TranslationKey) (unique : List String) :
    List WordEntry → Nat → List QuizQuestion × Nat
  | [], k => ([], k)
  | w :: rest, k =>
    let correctAnswer := getTranslationForQuiz w language
    let pool := unique.filter (fun text => text ≠ correctAnswer)
    let distractorPool := shuffleArray s k pool
    let k1 := k + (pool.length - 1)
    let preOptions := correctAnswer :: distractorPool.take 3
    let options := shuffleArray s k1 preOptions
    let k2 := k1 + (preOptions.length - 1)
    let q : QuizQuestion :=
      { word := w, options := options,
        correctIndex := List.indexOf correctAnswer options }
    let res := buildLoop s language unique rest k2
    (q :: res.1, res.2)

/-- The words usable for a quiz in the given language: those whose
`getTranslationForQuiz` value is truthy (i.e. nonempty). -/
def wordsWithTranslations (ws : List WordEntry) (language : TranslationKey) :
    List WordEntry :=
  ws.filter (fun w => !(getTranslationForQuiz w language).isEmpty)

/-- The distinct nonempty translations available in the given language
(`Array.from(new Set(...map(...).filter(Boolean)))`). -/
def uniqueTranslations (ws : List WordEntry) (language : TranslationKey) :
    List String :=
  setDedup (((wordsWithTranslations ws language).map
    (fun w => getTranslationForQuiz w language)).filter (fun t => !t.isEmpty))

/-- `buildQuizQuestions` from `App.tsx`, parameterised by the word list
and the random stream: returns `[]` when fewer than 10 usable words or
fewer than 4 distinct translations exist, otherwise builds one question
for each of the first 10 words of the shuffled usable words. -/
def buildQuizQuestions (s : RandStream) (ws : List WordEntry)
    (language : TranslationKey) : List QuizQuestion :=
  let wwt := wordsWithTranslations ws language
  let unique := uniqueTranslations ws language
  if wwt.length < 10 || unique.length < 4 then []
  else
    let selectedWords := (shuffleArray s 0 wwt).take 10
    (buildLoop s language unique selectedWords (wwt.length - 1)).1

/-- An upper bound on the number of random draws `buildQuizQuestions` can
consume. -/
def randomBudget (ws : List WordEntry) (language : TranslationKey) : Nat :=
  (wordsWithTranslations ws language).length +
    10 * ((uniqueTranslations ws language).length + 4)

/-- The three quiz states of the `quizState` variable. -/
inductive QuizState where
  | idle | active | complete
deriving DecidableEq

/-- The error message set by `startQuiz` on refusal. -/
def quizErrorMsg : String :=
  "Nije moguce napraviti kviz: nema dovoljno rijeci s odabranim prijevodom."

/-- The state held by the `App` component: the static word list together
with every `useState` variable that the claims touch. -/
structure AppState where
  words : List WordEntry
  query : String
  activeCategory : String
  translation : TranslationKey
  quizLanguage : TranslationKey
  quizState : QuizState
  quizQuestions : List QuizQuestion
  quizIndex : Nat
  selectedChoice : Option Nat
  quizScore : Nat
  quizError : Option String

/-- The UI events the component handles.  `start` carries the random
stream its `buildQuizQuestions` call will draw from. -/
inductive Event where
  | setQuery (q : String)
  | setCategory (c : String)
  | setTranslation (k : TranslationKey)
  | setQuizLanguage (k : TranslationKey)
  | start (s : RandStream)
  | answer (i : Nat)
  | next
  | reset

/-- `currentQuestion = quizQuestions[quizIndex]`. -/
def currentQuestion (st : AppState) : Option QuizQuestion :=
  st.quizQuestions.get? st.quizIndex

/-- The event handlers of `App.tsx` as a transition function:
`startQuiz`, `handleAnswer`, `goToNext`, `resetQuiz` and the four
setters. -/
def step (st : AppState) : Event → AppState
  | .setQuery q => { st with query := q }
  | .setCategory c => { st with activeCategory := c }
  | .setTranslation k => { st with translation := k }
  | .setQuizLanguage k => { st with quizLanguage := k }
  | .start s =>
    let questions := buildQuizQuestions s st.words st.quizLanguage
    if questions.length < 10 then
      { st with quizError := some quizErrorMsg, quizState := .idle }
    else
      { st with quizQuestions := questions, quizIndex := 0,
                selectedChoice := none, quizScore := 0, quizError := none,
                quizState := .active }
  | .answer i =>
    match currentQuestion st with
    | none => st
    | some cq =>
      if st.selectedChoice ≠ none then st
      else
        { st with selectedChoice := some i,
                  quizScore := if i = cq.correctIndex then st.quizScore + 1
                               else st.quizScore }
  | .next =>
    match currentQuestion st with
    | none => st
    | some _ =>
      if st.quizIndex = st.quizQuestions.length - 1 then
        { st with quizState := .complete }
      else
        { st with quizIndex := st.quizIndex + 1, selectedChoice := none }
  | .reset =>
    { st with quizState := .idle, quizQuestions := [], quizIndex := 0,
              selectedChoice := none, quizScore := 0, quizError := none }

/-- Which events the rendered UI can deliver in a given state, read off
the JSX: the setters and the start button are always available; the reset
button is rendered only outside `idle`; the answer buttons exist only in
`active` with a current question and are disabled after a choice; the
next button appears in `active` below an answered question. -/
def enabled (st : AppState) : Event → Prop
  | .setQuery _ => True
  | .setCategory _ => True
  | .setTranslation _ => True
  | .setQuizLanguage _ => True
  | .start _ => True
  | .reset => st.quizState ≠ .idle
  | .answer i =>
    st.quizState = .active ∧ (currentQuestion st).isSome ∧
      st.selectedChoice = none ∧
      i < ((currentQuestion st).map (fun q => q.options.length)).getD 0
  | .next =>
    st.quizState = .active ∧ (currentQuestion st).isSome ∧
      st.selectedChoice ≠ none

/-- Running a sequence of UI events from a state. -/
def run (st : AppState) (evs : List Event) : AppState :=
  evs.foldl step st

/-- The pure search part of the filter predicate: the lowercased trimmed
query occurs in the lowercased searchable string.  (With an empty needle
`jsIncludes` is trivially true, matching the early `return` of the code.) -/
def matchesSearchOnly (query : String) (w : WordEntry) : Bool :=
  jsIncludes (jsLower (searchable w)) (jsLower (jsTrim query))

/-- The search predicate as claim C1 states it: the query, after case
folding and diacritic removal, occurs in the similarly folded searchable
text of the entry. -/
def specSearchMatch (query : String) (w : WordEntry) : Bool :=
  jsIncludes (foldBase (searchable w)) (foldBase query)

/-! ## Concrete data used by witnesses and counterexamples -/

/-- An entry whose Croatian headword carries a diacritic. -/
def wC1 : WordEntry :=
  { id := "cx1", en := "helmet", hr := "šljem", category := "safety" }

/-- A plain entry used by the category-filter witness. -/
def wC4 : WordEntry :=
  { id := "c4", en := "ladder", hr := "ljestve", category := "tools" }

/-- An entry whose Hindi field is present but blank. -/
def wC9 : WordEntry :=
  { id := "c9", en := "hammer", hr := "čekić", hi := some " ",
    category := "tools" }

/-- A ten-entry word list with ten distinct English translations, enough
for quiz generation to succeed in English. -/
def wordsA : List WordEntry :=
  [ { id := "w1", en := "alpha", hr := "jedan", category := "safety" },
    { id := "w2", en := "bravo", hr := "dva", category := "safety" },
    { id := "w3", en := "carol", hr := "tri", category := "safety" },
    { id := "w4", en := "delta", hr := "cetiri", category := "safety" },
    { id := "w5", en := "echo", hr := "pet", category := "safety" },
    { id := "w6", en := "fox", hr := "sest", category := "safety" },
    { id := "w7", en := "golf", hr := "sedam", category := "safety" },
    { id := "w8", en := "hotel", hr := "osam", category := "safety" },
    { id := "w9", en := "india", hr := "devet", category := "safety" },
    { id := "w10", en := "julia", hr := "deset", category := "safety" } ]

/-- The first question generated from `wordsA` in English with the
all-zero random stream. -/
def qW : QuizQuestion :=
  { word := { id := "w2", en := "bravo", hr := "dva", category := "safety" },
    options := ["carol", "delta", "echo", "bravo"], correctIndex := 3 }

/-- An idle starting state over `wordsA`, used by witnesses. -/
def stA : AppState :=
  { words := wordsA, query := "", activeCategory := "All",
    translation := .en, quizLanguage := .en, quizState := .idle,
    quizQuestions := [], quizIndex := 0, selectedChoice := none,
    quizScore := 0, quizError := none }

theorem containsSub_nil (hay : List Char) : containsSub [] hay = true := by
  cases hay <;> simp [containsSub, beginsWith]

theorem matchesFilter_eq_and (cat q : String) (w : WordEntry) :
    matchesFilter cat q w =
      ((cat == "All" || w.category == cat) && matchesSearchOnly q w) := by
  by_cases h : (jsLower (jsTrim q)).isEmpty
  · have hq : jsLower (jsTrim q) = "" := (String.isEmpty_iff _).1 h
    simp [matchesFilter, h, matchesSearchOnly, jsIncludes, hq, containsSub_nil]
  · simp [matchesFilter, h, matchesSearchOnly]

theorem mem_filteredWords {cat q : String} {ws : List WordEntry}
    {w : WordEntry} :
    w ∈ filteredWords cat q ws ↔ w ∈ ws ∧ matchesFilter cat q w = true := by
  unfold filteredWords
  rw [List.mem_mergeSort, List.mem_filter]

/-! ## Claims C1 and C4: search and category filtering -/

/-- **C1, counterexample.**  The claim says search matching is
diacritic-insensitive: the folded query "sljem" does occur in the folded
text of the entry "šljem / helmet", yet the entry is not displayed for
the query "sljem" — `filteredWords` only lowercases, it never strips
diacritics. -/
theorem search_not_diacritic_insensitive_cx :
    specSearchMatch "sljem" wC1 = true ∧
      wC1 ∉ filteredWords "All" "sljem" [wC1] := by
  refine ⟨by decide, fun hmem => ?_⟩
  rw [mem_filteredWords] at hmem
  revert hmem
  decide

/-- **C1 (amended).**  Search matching is case-insensitive (but not
diacritic-insensitive) and matches against all translation fields: an
entry is displayed iff it passes the category filter and the lowercased
trimmed query occurs as a substring of the lowercased space-joined
concatenation of its `hr`, `en`, `es`, `hi`, `ta`, `te`, `bn` fields
(absent and empty fields omitted). -/
theorem search_case_insensitive_all_fields (cat q : String)
    (ws : List WordEntry) (w : WordEntry) :
    w ∈ filteredWords cat q ws ↔
      w ∈ ws ∧ (cat == "All" || w.category == cat) = true ∧
        jsIncludes (jsLower (searchable w)) (jsLower (jsTrim q)) = true := by
  rw [mem_filteredWords, matchesFilter_eq_and]
  simp only [matchesSearchOnly, Bool.and_eq_true, and_assoc]

/-- **C4.**  For a selected category other than `All`, every displayed
entry has exactly that category and every entry of that category matching
the search is displayed; with category `All` no entry is excluded on
category grounds. -/
theorem category_filter_exact (cat q : String) (ws : List WordEntry)
    (w : WordEntry) :
    (cat ≠ "All" → w ∈ filteredWords cat q ws → w.category = cat) ∧
    (cat ≠ "All" → w ∈ ws → w.category = cat →
      matchesSearchOnly q w = true → w ∈ filteredWords cat q ws) ∧
    (cat = "All" →
      (w ∈ filteredWords cat q ws ↔ w ∈ ws ∧ matchesSearchOnly q w = true)) := by
  refine ⟨fun hne hmem => ?_, fun hne hw hcat hsearch => ?_, fun hall => ?_⟩
  · rw [mem_filteredWords, matchesFilter_eq_and] at hmem
    have h := hmem.2
    rw [Bool.and_eq_true, Bool.or_eq_true] at h
    rcases h.1 with h1 | h1
    · exact absurd (by simpa using h1) hne
    · exact beq_iff_eq.1 h1
  · rw [mem_filteredWords, matchesFilter_eq_and]
    refine ⟨hw, ?_⟩
    rw [Bool.and_eq_true, Bool.or_eq_true]
    exact ⟨Or.inr (beq_iff_eq.2 hcat), hsearch⟩
  · subst hall
    rw [mem_filteredWords, matchesFilter_eq_and]
    simp [matchesSearchOnly]

/-- Witness for C4 at a concrete input: the entry of category `tools`
matching the query `ladder` is displayed, and its category is `tools`. -/
theorem category_filter_exact_witness :
    wC4 ∈ filteredWords "tools" "ladder" [wC4] ∧ wC4.category = "tools" := by
  have hmem := (category_filter_exact "tools" "ladder" [wC4] wC4).2.1
    (by decide) (by decide) rfl (by decide)
  exact ⟨hmem, (category_filter_exact "tools" "ladder" [wC4] wC4).1
    (by decide) hmem⟩

/-! ## The shuffle is a permutation -/

theorem get_cons_set_perm :
    ∀ (t : List α) (m : Nat) (x : α) (hm : m < t.length),
      t.get ⟨m, hm⟩ :: t.set m x ~ x :: t
  | y :: r, 0, x, _ => List.Perm.swap x y r
  | y :: r, m + 1, x, hm => by
    have hm' : m < r.length := Nat.lt_of_succ_lt_succ hm
    calc (y :: r).get ⟨m + 1, hm⟩ :: (y :: r).set (m + 1) x
        = r.get ⟨m, hm'⟩ :: y :: r.set m x := by simp
      _ ~ y :: r.get ⟨m, hm'⟩ :: r.set m x := List.Perm.swap _ _ _
      _ ~ y :: x :: r := (get_cons_set_perm r m x hm').cons y
      _ ~ x :: y :: r := List.Perm.swap _ _ _

theorem set_set_perm :
    ∀ (l : List α) (i j : Nat) (hi : i < l.length) (hj : j < l.length),
      (l.set i (l.get ⟨j, hj⟩)).set j (l.get ⟨i, hi⟩) ~ l
  | a :: t, 0, 0, _, _ => by simp
  | a :: t, 0, j + 1, _, hj => by
    have hj' : j < t.length := Nat.lt_of_succ_lt_succ hj
    simpa using get_cons_set_perm t j a hj'
  | a :: t, i + 1, 0, hi, _ => by
    have hi' : i < t.length := Nat.lt_of_succ_lt_succ hi
    simpa using get_cons_set_perm t i a hi'
  | a :: t, i + 1, j + 1, hi, hj => by
    have hi' : i < t.length := Nat.lt_of_succ_lt_succ hi
    have hj' : j < t.length := Nat.lt_of_succ_lt_succ hj
    simpa using (set_set_perm t i j hi' hj').cons a

theorem listSwap_perm (l : List α) (i j : Nat) : listSwap l i j ~ l := by
  unfold listSwap
  cases hi : l.get? i with
  | none => simp
  | some a =>
    cases hj : l.get? j with
    | none => simp
    | some b =>
      have hi' : i < l.length := List.get?_eq_some.1 hi |>.1
      have hj' : j < l.length := List.get?_eq_some.1 hj |>.1
      have ha : l.get ⟨i, hi'⟩ = a := List.get?_eq_some.1 hi |>.2
      have hb : l.get ⟨j, hj'⟩ = b := List.get?_eq_some.1 hj |>.2
      have hp := set_set_perm l i j hi' hj'
      rw [ha, hb] at hp
      exact hp

theorem shuffleFrom_perm (s : RandStream) :
    ∀ (n k : Nat) (l : List α), shuffleFrom s k l n ~ l
  | 0, _, _ => List.Perm.refl _
  | n + 1, k, l =>
    (shuffleFrom_perm s n (k + 1) _).trans (listSwap_perm l (n + 1) _)

theorem shuffleArray_perm (s : RandStream) (k : Nat) (l : List α) :
    shuffleArray s k l ~ l :=
  shuffleFrom_perm s _ k l

theorem shuffleArray_length (s : RandStream) (k : Nat) (l : List α) :
    (shuffleArray s k l).length = l.length :=
  (shuffleArray_perm s k l).length_eq

/-! ## Deduplication lemmas -/

theorem mem_setDedupAux (a : String) :
    ∀ (l seen : List String), a ∈ setDedupAux seen l ↔ a ∈ l ∧ a ∉ seen
  | [], seen => by simp [setDedupAux]
  | b :: rest, seen => by
    by_cases hb : b ∈ seen
    · rw [setDedupAux, if_pos hb, mem_setDedupAux a rest seen]
      simp only [List.mem_cons]
      constructor
      · exact fun ⟨h1, h2⟩ => ⟨Or.inr h1, h2⟩
      · rintro ⟨h | h, h2⟩
        · subst h; exact absurd hb h2
        · exact ⟨h, h2⟩
    · rw [setDedupAux, if_neg hb]
      simp only [List.mem_cons, mem_setDedupAux a rest (b :: seen)]
      constructor
      · rintro (rfl | ⟨h1, h2⟩)
        · exact ⟨Or.inl rfl, hb⟩
        · exact ⟨Or.inr h1, fun hs => h2 (Or.inr hs)⟩
      · rintro ⟨h1, h2⟩
        by_cases hab : a = b
        · exact Or.inl hab
        · rcases h1 with h | h
          · exact absurd h hab
          · refine Or.inr ⟨h, fun hs => ?_⟩
            rcases hs with h3 | h3
            · exact hab h3
            · exact h2 h3

theorem nodup_setDedupAux :
    ∀ (l seen : List String), (setDedupAux seen l).Nodup
  | [], _ => List.nodup_nil
  | b :: rest, seen => by
    by_cases hb : b ∈ seen
    · rw [setDedupAux, if_pos hb]
      exact nodup_setDedupAux rest seen
    · rw [setDedupAux, if_neg hb]
      refine List.Nodup.cons (fun hmem => ?_) (nodup_setDedupAux rest (b :: seen))
      exact ((mem_setDedupAux b rest (b :: seen)).1 hmem).2 (List.mem_cons_self _ _)

theorem mem_setDedup {a : String} {l : List String} :
    a ∈ setDedup l ↔ a ∈ l := by
  rw [setDedup, mem_setDedupAux]
  simp

theorem nodup_setDedup (l : List String) : (setDedup l).Nodup :=
  nodup_setDedupAux l []

/-! ## Quiz-generation lemmas -/

theorem length_filter_ne {l : List String} {a : String} (hnd : l.Nodup)
    (ha : a ∈ l) :
    (l.filter (fun b => b ≠ a)).length = l.length - 1 := by
  have heq : l.filter (fun b => decide (b ≠ a)) = l.erase a := by
    rw [List.Nodup.erase_eq_filter hnd a]
    apply List.filter_congr
    intro b _
    by_cases h : b = a <;> simp [h]
  rw [heq]
  exact List.length_erase_of_mem ha

theorem buildLoop_words (s : RandStream) (lang : TranslationKey)
    (unique : List String) :
    ∀ (l : List WordEntry) (k : Nat),
      ((buildLoop s lang unique l k).1).map QuizQuestion.word = l
  | [], _ => rfl
  | w :: rest, k => by
    simp only [buildLoop, List.map_cons]
    exact congrArg (w :: ·) (buildLoop_words s lang unique rest _)

theorem buildLoop_length (s : RandStream) (lang : TranslationKey)
    (unique : List String) (l : List WordEntry) (k : Nat) :
    (buildLoop s lang unique l k).1.length = l.length := by
  have h := congrArg List.length (buildLoop_words s lang unique l k)
  simpa using h

theorem buildLoop_mem_spec (s : RandStream) (lang : TranslationKey)
    (unique : List String) (hnd : unique.Nodup) (hu : 4 ≤ unique.length) :
    ∀ (l : List WordEntry) (k : Nat),
      (∀ w ∈ l, getTranslationForQuiz w lang ∈ unique) →
      ∀ q ∈ (buildLoop s lang unique l k).1,
        q.options.length = 4 ∧ q.options.Nodup ∧
        q.options.count (getTranslationForQuiz q.word lang) = 1 ∧
        q.correctIndex = List.indexOf (getTranslationForQuiz q.word lang) q.options ∧
        q.options[q.correctIndex]? = some (getTranslationForQuiz q.word lang)
  | [], _, _, q, hq => by simp [buildLoop] at hq
  | w :: rest, k, hl, q, hq => by
    rw [buildLoop, List.mem_cons] at hq
    rcases hq with rfl | hq
    · -- the head question, built from `w`
      set corr := getTranslationForQuiz w lang with hcorr
      have hcm : corr ∈ unique := hl w (List.mem_cons_self _ _)
      have hpoollen : (unique.filter (fun t => t ≠ corr)).length =
          unique.length - 1 := length_filter_ne hnd hcm
      have h3 : 3 ≤ (unique.filter (fun t => t ≠ corr)).length := by omega
      have hpoolnd : (unique.filter (fun t => t ≠ corr)).Nodup :=
        hnd.filter _
      have hcnp : corr ∉ unique.filter (fun t => t ≠ corr) := by
        simp [List.mem_filter]
      have hdpperm := shuffleArray_perm s k (unique.filter (fun t => t ≠ corr))
      have hdnd : (shuffleArray s k (unique.filter (fun t => t ≠ corr))).Nodup :=
        hdpperm.nodup_iff.2 hpoolnd
      have hdlen : (shuffleArray s k (unique.filter (fun t => t ≠ corr))).length =
          (unique.filter (fun t => t ≠ corr)).length := hdpperm.length_eq
      have htsub : (shuffleArray s k (unique.filter (fun t => t ≠ corr))).take 3 <+
          shuffleArray s k (unique.filter (fun t => t ≠ corr)) :=
        List.take_sublist 3 _
      have htnd : ((shuffleArray s k (unique.filter (fun t => t ≠ corr))).take 3).Nodup :=
        hdnd.sublist htsub
      have htlen : ((shuffleArray s k (unique.filter (fun t => t ≠ corr))).take 3).length = 3 := by
        rw [List.length_take]
        omega
      have hcnt : corr ∉ (shuffleArray s k (unique.filter (fun t => t ≠ corr))).take 3 :=
        fun hmem => hcnp (hdpperm.mem_iff.1 (htsub.subset hmem))
      have hprend : (corr :: (shuffleArray s k (unique.filter (fun t => t ≠ corr))).take 3).Nodup :=
        List.nodup_cons.2 ⟨hcnt, htnd⟩
      have hprelen : (corr :: (shuffleArray s k (unique.filter (fun t => t ≠ corr))).take 3).length = 4 := by
        rw [List.length_cons, htlen]
      have hprecount : (corr :: (shuffleArray s k (unique.filter (fun t => t ≠ corr))).take 3).count corr = 1 := by
        rw [List.count_cons_self, List.count_eq_zero.2 hcnt]
      have hoptperm := shuffleArray_perm s (k + ((unique.filter (fun t => t ≠ corr)).length - 1))
        (corr :: (shuffleArray s k (unique.filter (fun t => t ≠ corr))).take 3)
      refine ⟨?_, ?_, ?_, rfl, ?_⟩
      · rw [hoptperm.length_eq]; exact hprelen
      · exact hoptperm.nodup_iff.2 hprend
      · rw [hoptperm.count_eq]; exact hprecount
      · have hmem : corr ∈ shuffleArray s (k + ((unique.filter (fun t => t ≠ corr)).length - 1))
            (corr :: (shuffleArray s k (unique.filter (fun t => t ≠ corr))).take 3) :=
          hoptperm.mem_iff.2 (List.mem_cons_self _ _)
        exact List.getElem?_indexOf hmem
    · exact buildLoop_mem_spec s lang unique hnd hu rest _
        (fun w' hw' => hl w' (List.mem_cons_of_mem w hw')) q hq

theorem buildQuizQuestions_length (s : RandStream) (ws : List WordEntry)
    (lang : TranslationKey)
    (h10 : 10 ≤ (wordsWithTranslations ws lang).length)
    (h4 : 4 ≤ (uniqueTranslations ws lang).length) :
    (buildQuizQuestions s ws lang).length = 10 := by
  rw [buildQuizQuestions, if_neg]
  · rw [buildLoop_length, List.length_take, shuffleArray_length]
    omega
  · simp only [Bool.or_eq_true, decide_eq_true_eq]
    omega

theorem buildQuizQuestions_eq_nil_iff (s : RandStream) (ws : List WordEntry)
    (lang : TranslationKey) :
    buildQuizQuestions s ws lang = [] ↔
      (wordsWithTranslations ws lang).length < 10 ∨
        (uniqueTranslations ws lang).length < 4 := by
  by_cases hc : (wordsWithTranslations ws lang).length < 10 ∨
      (uniqueTranslations ws lang).length < 4
  · rw [buildQuizQuestions, if_pos]
    · simp [hc]
    · simp only [Bool.or_eq_true, decide_eq_true_eq]
      exact hc
  · push_neg at hc
    have hlen := buildQuizQuestions_length s ws lang hc.1 hc.2
    constructor
    · intro hnil
      rw [hnil] at hlen
      simp at hlen
    · intro h
      omega

/-- Every sampled word of a successful generation lies in
`wordsWithTranslations` and its translation lies in `uniqueTranslations`. -/
theorem selected_mem_unique (s : RandStream) (ws : List WordEntry)
    (lang : TranslationKey) (w : WordEntry)
    (hw : w ∈ (shuffleArray s 0 (wordsWithTranslations ws lang)).take 10) :
    w ∈ wordsWithTranslations ws lang ∧
      getTranslationForQuiz w lang ∈ uniqueTranslations ws lang := by
  have hw2 : w ∈ wordsWithTranslations ws lang :=
    (shuffleArray_perm s 0 _).mem_iff.1 ((List.take_sublist _ _).subset hw)
  refine ⟨hw2, ?_⟩
  have hne := (List.mem_filter.1 hw2).2
  rw [uniqueTranslations]
  refine mem_setDedup.2 (List.mem_filter.2 ⟨List.mem_map_of_mem _ ?_, hne⟩)
  exact hw2

/-- **C3.**  Every generated question has exactly four pairwise-distinct
options, exactly one of which equals the correct translation of the
question's word, and `correctIndex` is the index of that option. -/
theorem quiz_question_options (s : RandStream) (ws : List WordEntry)
    (lang : TranslationKey) (q : QuizQuestion)
    (hq : q ∈ buildQuizQuestions s ws lang) :
    q.options.length = 4 ∧ q.options.Nodup ∧
      q.options.count (getTranslationForQuiz q.word lang) = 1 ∧
      q.correctIndex = List.indexOf (getTranslationForQuiz q.word lang) q.options ∧
      q.options[q.correctIndex]? = some (getTranslationForQuiz q.word lang) := by
  by_cases hc : (wordsWithTranslations ws lang).length < 10 ∨
      (uniqueTranslations ws lang).length < 4
  · rw [(buildQuizQuestions_eq_nil_iff s ws lang).2 hc] at hq
    simp at hq
  · push_neg at hc
    rw [buildQuizQuestions, if_neg (by
      simp only [Bool.or_eq_true, decide_eq_true_eq]
      omega)] at hq
    exact buildLoop_mem_spec s lang _ (nodup_setDedup _) hc.2 _ _
      (fun w hw => (selected_mem_unique s ws lang w hw).2) q hq

/-- Witness for C3: the first question generated from `wordsA` with the
all-zero random stream. -/
theorem quiz_question_options_witness :
    qW.options.length = 4 ∧ qW.options.Nodup ∧
      qW.options.count (getTranslationForQuiz qW.word TranslationKey.en) = 1 ∧
      qW.correctIndex =
        List.indexOf (getTranslationForQuiz qW.word TranslationKey.en) qW.options ∧
      qW.options[qW.correctIndex]? =
        some (getTranslationForQuiz qW.word TranslationKey.en) :=
  quiz_question_options (fun _ => 0) wordsA TranslationKey.en qW (by decide)

/-- **C8.**  A successful generation returns exactly 10 questions, built
from pairwise-distinct entries of the word list (their multiset of words
is a sub-permutation of the list), each with a nonempty translation. -/
theorem quiz_success_ten_distinct (s : RandStream) (ws : List WordEntry)
    (lang : TranslationKey) (hne : buildQuizQuestions s ws lang ≠ []) :
    (buildQuizQuestions s ws lang).length = 10 ∧
      ((buildQuizQuestions s ws lang).map QuizQuestion.word) <+~ ws ∧
      ∀ q ∈ buildQuizQuestions s ws lang,
        (getTranslationForQuiz q.word lang).isEmpty = false := by
  have hc : ¬((wordsWithTranslations ws lang).length < 10 ∨
      (uniqueTranslations ws lang).length < 4) :=
    fun hc => hne ((buildQuizQuestions_eq_nil_iff s ws lang).2 hc)
  push_neg at hc
  have hif : ¬((decide ((wordsWithTranslations ws lang).length < 10) ||
      decide ((uniqueTranslations ws lang).length < 4)) = true) := by
    simp only [Bool.or_eq_true, decide_eq_true_eq]
    omega
  refine ⟨buildQuizQuestions_length s ws lang hc.1 hc.2, ?_, ?_⟩
  · rw [buildQuizQuestions, if_neg hif, buildLoop_words]
    have h1 : (shuffleArray s 0 (wordsWithTranslations ws lang)).take 10 <+~
        wordsWithTranslations ws lang :=
      (List.take_sublist _ _).subperm.trans (shuffleArray_perm s 0 _).subperm
    exact h1.trans (List.filter_sublist ws).subperm
  · intro q hq
    rw [buildQuizQuestions, if_neg hif] at hq
    have hword : q.word ∈ (shuffleArray s 0 (wordsWithTranslations ws lang)).take 10 := by
      have := buildLoop_words s lang (uniqueTranslations ws lang)
        ((shuffleArray s 0 (wordsWithTranslations ws lang)).take 10)
        ((wordsWithTranslations ws lang).length - 1)
      rw [← this]
      exact List.mem_map_of_mem _ hq
    have hmem := (selected_mem_unique s ws lang q.word hword).1
    have hne2 := (List.mem_filter.1 hmem).2
    simpa using hne2

/-- Witness for C8 at a concrete input: generation over `wordsA` with the
all-zero stream succeeds and satisfies the three conclusions. -/
theorem quiz_success_ten_distinct_witness :
    (buildQuizQuestions (fun _ => 0) wordsA TranslationKey.en).length = 10 ∧
      ((buildQuizQuestions (fun _ => 0) wordsA TranslationKey.en).map
        QuizQuestion.word) <+~ wordsA ∧
      ∀ q ∈ buildQuizQuestions (fun _ => 0) wordsA TranslationKey.en,
        (getTranslationForQuiz q.word TranslationKey.en).isEmpty = false :=
  quiz_success_ten_distinct (fun _ => 0) wordsA TranslationKey.en (by decide)

/-- **C2.**  The start handler refuses — produces no questions and leaves
the quiz idle with an error message — exactly when fewer than 10 words
have a usable translation in the chosen language or fewer than 4 distinct
translations exist in it. -/
theorem startQuiz_refusal_iff (st : AppState) (s : RandStream) :
    ((step st (Event.start s)).quizState = QuizState.idle ∧
      (step st (Event.start s)).quizError.isSome = true ∧
      buildQuizQuestions s st.words st.quizLanguage = []) ↔
      ((wordsWithTranslations st.words st.quizLanguage).length < 10 ∨
        (uniqueTranslations st.words st.quizLanguage).length < 4) := by
  constructor
  · rintro ⟨-, -, h3⟩
    exact (buildQuizQuestions_eq_nil_iff s st.words st.quizLanguage).1 h3
  · intro hc
    have h3 := (buildQuizQuestions_eq_nil_iff s st.words st.quizLanguage).2 hc
    refine ⟨?_, ?_, h3⟩ <;> simp [step, h3]

/-! ## Claims C5 and C6: the state machine -/

theorem step_words (st : AppState) (e : Event) : (step st e).words = st.words := by
  cases e <;> simp only [step] <;> (repeat' split) <;> rfl

/-- **C6.**  The word list is never mutated: after any sequence of UI
events the `words` collection is exactly the startup collection, in the
same order with the same fields. -/
theorem words_never_mutated (st : AppState) (evs : List Event) :
    (run st evs).words = st.words := by
  induction evs generalizing st with
  | nil => rfl
  | cons e evs ih =>
    rw [run, List.foldl_cons]
    exact (ih (step st e)).trans (step_words st e)

/-- **C5.**  Any UI-deliverable event that changes the quiz state does so
along one of the claimed edges: to `active` from `idle` or `complete` on
a (necessarily successful) start, from `active` to `complete` on
advancing past the last question, or to `idle` on reset or failed start.
In particular the state never moves from `idle` directly to `complete`:
that would require the second disjunct, whose source state is `active`. -/
theorem quiz_state_machine (st : AppState) (e : Event)
    (hen : enabled st e)
    (hch : (step st e).quizState ≠ st.quizState) :
    ((step st e).quizState = QuizState.active ∧
        (st.quizState = QuizState.idle ∨ st.quizState = QuizState.complete) ∧
        ∃ s, e = Event.start s) ∨
      ((step st e).quizState = QuizState.complete ∧
        st.quizState = QuizState.active ∧ e = Event.next) ∨
      ((step st e).quizState = QuizState.idle ∧
        (e = Event.reset ∨ ∃ s, e = Event.start s)) := by
  cases e with
  | setQuery q => simp [step] at hch
  | setCategory c => simp [step] at hch
  | setTranslation k => simp [step] at hch
  | setQuizLanguage k => simp [step] at hch
  | reset => exact Or.inr (Or.inr ⟨by simp [step], Or.inl rfl⟩)
  | start s =>
    by_cases hfail :
        (buildQuizQuestions s st.words st.quizLanguage).length < 10
    · refine Or.inr (Or.inr ⟨?_, Or.inr ⟨s, rfl⟩⟩)
      simp [step, if_pos hfail]
    · have hact : (step st (Event.start s)).quizState = QuizState.active := by
        simp [step, if_neg hfail]
      refine Or.inl ⟨hact, ?_, ⟨s, rfl⟩⟩
      rw [hact] at hch
      cases hst : st.quizState with
      | idle => exact Or.inl rfl
      | complete => exact Or.inr rfl
      | active => rw [hst] at hch; exact absurd rfl hch
  | answer i =>
    rcases hcq : currentQuestion st with - | cq
    · simp [step, hcq] at hch
    · simp only [step, hcq] at hch
      by_cases hsel : st.selectedChoice ≠ none
      · rw [if_pos hsel] at hch; exact absurd rfl hch
      · rw [if_neg hsel] at hch; exact absurd rfl hch
  | next =>
    obtain ⟨hactive, hcq, -⟩ := hen
    rcases hq : currentQuestion st with - | cq
    · simp [step, hq] at hch
    · simp only [step, hq] at hch
      by_cases hlast : st.quizIndex = st.quizQuestions.length - 1
      · refine Or.inr (Or.inl ⟨?_, hactive, rfl⟩)
        simp [step, hq, if_pos hlast]
      · rw [if_neg hlast] at hch; exact absurd rfl hch

/-! ## Claim C7: determinism relative to the random draws -/

theorem shuffleFrom_congr (s1 s2 : RandStream) :
    ∀ (n k : Nat) (l : List α),
      (∀ i, i < k + n → s1 i = s2 i) →
      shuffleFrom s1 k l n = shuffleFrom s2 k l n
  | 0, _, _, _ => rfl
  | n + 1, k, l, h => by
    rw [shuffleFrom, shuffleFrom, h k (by omega)]
    exact shuffleFrom_congr s1 s2 n (k + 1) _ (fun i hi => h i (by omega))

theorem shuffleArray_congr (s1 s2 : RandStream) (k : Nat) (l : List α)
    (h : ∀ i, i < k + (l.length - 1) → s1 i = s2 i) :
    shuffleArray s1 k l = shuffleArray s2 k l :=
  shuffleFrom_congr s1 s2 _ k l h

theorem buildLoop_congr (s1 s2 : RandStream) (lang : TranslationKey)
    (unique : List String) :
    ∀ (l : List WordEntry) (k : Nat),
      (∀ i, i < k + l.length * (unique.length + 4) → s1 i = s2 i) →
      (buildLoop s1 lang unique l k).1 = (buildLoop s2 lang unique l k).1
  | [], _, _ => rfl
  | w :: rest, k, h => by
    have hpool : (unique.filter
        (fun text => text ≠ getTranslationForQuiz w lang)).length ≤
        unique.length := List.length_filter_le _ _
    have hsh1 : shuffleArray s1 k (unique.filter
        (fun text => text ≠ getTranslationForQuiz w lang)) =
        shuffleArray s2 k (unique.filter
          (fun text => text ≠ getTranslationForQuiz w lang)) := by
      apply shuffleArray_congr
      intro i hi
      apply h i
      have := Nat.succ_le_succ (Nat.zero_le rest.length)
      calc i < k + ((unique.filter
            (fun text => text ≠ getTranslationForQuiz w lang)).length - 1) := hi
        _ ≤ k + (rest.length + 1) * (unique.length + 4) := by
            rw [Nat.succ_mul]
            omega
    have htk : ((shuffleArray s2 k (unique.filter
        (fun text => text ≠ getTranslationForQuiz w lang))).take 3).length ≤ 3 :=
      le_trans (List.length_take_le _ _) (le_refl _)
    simp only [buildLoop]
    rw [hsh1]
    have hsh2 : shuffleArray s1
        (k + ((unique.filter (fun text => text ≠ getTranslationForQuiz w lang)).length - 1))
        (getTranslationForQuiz w lang ::
          (shuffleArray s2 k (unique.filter
            (fun text => text ≠ getTranslationForQuiz w lang))).take 3) =
        shuffleArray s2
        (k + ((unique.filter (fun text => text ≠ getTranslationForQuiz w lang)).length - 1))
        (getTranslationForQuiz w lang ::
          (shuffleArray s2 k (unique.filter
            (fun text => text ≠ getTranslationForQuiz w lang))).take 3) := by
      apply shuffleArray_congr
      intro i hi
      apply h i
      rw [List.length_cons] at hi
      calc i < _ := hi
        _ ≤ k + (rest.length + 1) * (unique.length + 4) := by
            rw [Nat.succ_mul]
            omega
    rw [hsh2]
    have hrest := buildLoop_congr s1 s2 lang unique rest
      (k + ((unique.filter (fun text => text ≠ getTranslationForQuiz w lang)).length - 1) +
        ((getTranslationForQuiz w lang ::
          (shuffleArray s2 k (unique.filter
            (fun text => text ≠ getTranslationForQuiz w lang))).take 3).length - 1))
      (by
        intro i hi
        apply h i
        rw [List.length_cons] at hi
        calc i < _ := hi
          _ ≤ k + (rest.length + 1) * (unique.length + 4) := by
              rw [Nat.succ_mul]
              omega)
    rw [hrest]

/-- **C7 (amended).**  Quiz generation is a pure function of the language,
the word list and the random draws it consumes: two runs whose random
streams agree on the draw budget produce the same list of questions. -/
theorem quiz_generation_deterministic_in_draws (lang : TranslationKey)
    (ws : List WordEntry) (s1 s2 : RandStream)
    (h : ∀ i, i < randomBudget ws lang → s1 i = s2 i) :
    buildQuizQuestions s1 ws lang = buildQuizQuestions s2 ws lang := by
  rw [buildQuizQuestions, buildQuizQuestions]
  by_cases hc : (decide ((wordsWithTranslations ws lang).length < 10) ||
      decide ((uniqueTranslations ws lang).length < 4)) = true
  · rw [if_pos hc, if_pos hc]
  · rw [if_neg hc, if_neg hc]
    have hwwt : shuffleArray s1 0 (wordsWithTranslations ws lang) =
        shuffleArray s2 0 (wordsWithTranslations ws lang) := by
      apply shuffleArray_congr
      intro i hi
      apply h i
      rw [randomBudget]
      omega
    rw [hwwt]
    apply buildLoop_congr
    intro i hi
    apply h i
    have hsel : ((shuffleArray s2 0 (wordsWithTranslations ws lang)).take 10).length ≤ 10 :=
      List.length_take_le _ _
    rw [randomBudget]
    have hle : ((shuffleArray s2 0 (wordsWithTranslations ws lang)).take 10).length *
        ((uniqueTranslations ws lang).length + 4) ≤
        10 * ((uniqueTranslations ws lang).length + 4) :=
      Nat.mul_le_mul_right _ hsel
    omega

/-- Witness for C7 (amended): two concrete streams that agree on the
budget of `wordsA` (150 draws) but differ beyond it generate the same
questions. -/
theorem quiz_generation_deterministic_in_draws_witness :
    buildQuizQuestions (fun _ => 0) wordsA TranslationKey.en =
      buildQuizQuestions (fun i => if i < 150 then 0 else 7) wordsA
        TranslationKey.en :=
  quiz_generation_deterministic_in_draws TranslationKey.en wordsA _ _ (by decide)

/-- **C7, counterexample.**  Two runs of quiz generation over the same
word list with different `Math.random` outcomes produce different
question lists, so generation is not a deterministic function of the
word list alone. -/
theorem quiz_generation_random_cx :
    buildQuizQuestions (fun _ => 0) wordsA TranslationKey.en ≠
      buildQuizQuestions (fun _ => 1) wordsA TranslationKey.en := by
  decide

/-! ## Claim C9: the English fallback -/

theorem dropWhile_head_false (p : α → Bool) :
    ∀ (l : List α) (c : α) (t : List α),
      l.dropWhile p = c :: t → p c = false
  | [], c, t, h => by simp [List.dropWhile] at h
  | a :: r, c, t, h => by
    rw [List.dropWhile_cons] at h
    by_cases ha : p a = true
    · rw [if_pos ha] at h
      exact dropWhile_head_false p r c t h
    · rw [if_neg ha] at h
      cases h
      simpa using ha

theorem trimList_idem (l : List Char) :
    (((l.dropWhile isJsSpace).rdropWhile isJsSpace).dropWhile
        isJsSpace).rdropWhile isJsSpace =
      (l.dropWhile isJsSpace).rdropWhile isJsSpace := by
  have hd : ((l.dropWhile isJsSpace).rdropWhile isJsSpace).dropWhile isJsSpace =
      (l.dropWhile isJsSpace).rdropWhile isJsSpace := by
    rcases hpre : (l.dropWhile isJsSpace).rdropWhile isJsSpace with - | ⟨c, t⟩
    · simp
    · obtain ⟨r, hr⟩ :=
        List.rdropWhile_prefix isJsSpace (l.dropWhile isJsSpace)
      rw [hpre] at hr
      have hdw : l.dropWhile isJsSpace = c :: (t ++ r) := by
        rw [← hr]
        simp
      have hc := dropWhile_head_false isJsSpace l c (t ++ r) hdw
      rw [List.dropWhile_cons, if_neg (by rw [hc]; exact Bool.false_ne_true)]
  rw [hd, List.rdropWhile_idempotent]

theorem jsTrim_idem (s : String) : jsTrim (jsTrim s) = jsTrim s :=
  congrArg String.mk (trimList_idem s.toList)

theorem isEmpty_eq_false {s : String} (h : s ≠ "") : s.isEmpty = false := by
  rcases hb : s.isEmpty with - | -
  · rfl
  · exact absurd ((String.isEmpty_iff s).1 hb) h

/-- **C9 (amended).**  The word card falls back to the English field
whenever the selected translation is absent or blank after trimming
(showing a dash only when English is blank too), while quiz-answer
extraction falls back to English only when the field is absent: a
present-but-blank field yields the empty string. -/
theorem translation_fallback_spec (w : WordEntry) (k : TranslationKey) :
    (getField w k = none → getTranslationForQuiz w k = jsTrim w.en) ∧
    (∀ t, getField w k = some t → getTranslationForQuiz w k = jsTrim t) ∧
    (∀ t, getField w k = some t → jsTrim t ≠ "" → cardText w k = t) ∧
    ((getField w k = none ∨ ∃ t, getField w k = some t ∧ jsTrim t = "") →
      cardText w k = (if jsTrim w.en ≠ "" then w.en else "—")) := by
  have hcard : (if !(jsTrim w.en).isEmpty then w.en else "—") =
      (if jsTrim w.en ≠ "" then w.en else "—") := by
    by_cases he : jsTrim w.en = ""
    · rw [if_neg (by rw [he]; decide), if_neg (by simp [he])]
    · rw [if_pos (by rw [isEmpty_eq_false he]; rfl), if_pos he]
  refine ⟨fun hf => ?_, fun t hf => ?_, fun t hf ht => ?_, fun hf => ?_⟩
  · rw [getTranslationForQuiz, hf]
    exact jsTrim_idem w.en
  · rw [getTranslationForQuiz, hf]
    exact jsTrim_idem t
  · simp only [cardText, hf]
    rw [if_pos (by rw [isEmpty_eq_false ht]; rfl)]
  · rcases hf with hf | ⟨t, hf, ht⟩
    · simp only [cardText, hf]
      exact hcard
    · simp only [cardText, hf]
      rw [if_neg (by rw [ht]; decide)]
      exact hcard

/-- Witness for C9 (amended): on the entry `wC9`, whose Hindi field is a
blank string, the card shows the English word while quiz extraction
returns the trimmed blank field. -/
theorem translation_fallback_spec_witness :
    getTranslationForQuiz wC9 TranslationKey.hi = jsTrim " " ∧
      cardText wC9 TranslationKey.hi =
        (if jsTrim wC9.en ≠ "" then wC9.en else "—") :=
  ⟨(translation_fallback_spec wC9 TranslationKey.hi).2.1 " " rfl,
   (translation_fallback_spec wC9 TranslationKey.hi).2.2.2
     (Or.inr ⟨" ", rfl, by decide⟩)⟩

/-- **C9, counterexample.**  On an entry whose Hindi field is present but
blank, the card display falls back to English ("hammer") but quiz-answer
extraction does not: it returns the empty string, not the English value,
refuting the claim that both fall back whenever the field is absent or
blank. -/
theorem quiz_translation_no_blank_fallback_cx :
    cardText wC9 TranslationKey.hi = "hammer" ∧
      getTranslationForQuiz wC9 TranslationKey.hi = "" ∧
      wC9.en = "hammer" := by
  decide

/-! ## Claim C10: the displayed list is a sorted permutation -/

theorem localeCompareHrBase_le_iff (a b : String) :
    localeCompareHrBase a b ≤ 0 ↔ foldBase a ≤ foldBase b := by
  unfold localeCompareHrBase
  rcases lt_trichotomy (foldBase a) (foldBase b) with h | h | h
  · rw [if_pos h]
    simp [h.le]
  · rw [if_neg (by rw [h]; exact lt_irrefl _),
      if_neg (by rw [h]; exact lt_irrefl _)]
    simp [h.le]
  · rw [if_neg (not_lt.2 h.le), if_pos h]
    simp [not_le.2 h]

theorem hrLe_trans (a b c : WordEntry)
    (hab : decide (localeCompareHrBase a.hr b.hr ≤ 0) = true)
    (hbc : decide (localeCompareHrBase b.hr c.hr ≤ 0) = true) :
    decide (localeCompareHrBase a.hr c.hr ≤ 0) = true := by
  simp only [decide_eq_true_eq, localeCompareHrBase_le_iff] at hab hbc ⊢
  exact le_trans hab hbc

theorem hrLe_total (a b : WordEntry) :
    (decide (localeCompareHrBase a.hr b.hr ≤ 0) ||
      decide (localeCompareHrBase b.hr a.hr ≤ 0)) = true := by
  rcases le_total (foldBase a.hr) (foldBase b.hr) with h | h <;>
    simp [localeCompareHrBase_le_iff, h]

/-- **C10.**  For every category and query, the displayed word list is a
permutation of the matching entries, ordered by the Croatian headword
under the modelled `localeCompare('hr', sensitivity base)` comparison. -/
theorem filteredWords_perm_sorted (cat q : String) (ws : List WordEntry) :
    filteredWords cat q ws ~ ws.filter (matchesFilter cat q) ∧
      (filteredWords cat q ws).Pairwise
        (fun a b => localeCompareHrBase a.hr b.hr ≤ 0) := by
  refine ⟨List.mergeSort_perm _ _, ?_⟩
  have hs := List.sorted_mergeSort
    (fun a b c => hrLe_trans a b c) (fun a b => hrLe_total a b)
    (ws.filter (matchesFilter cat q))
  exact hs.imp (fun h => of_decide_eq_true h)

/-- Witness for C5: from the idle state `stA` a start event over `wordsA`
succeeds and moves the quiz state, necessarily along a claimed edge. -/
theorem quiz_state_machine_witness :
    ((step stA (Event.start (fun _ => 0))).quizState = QuizState.active ∧
        (stA.quizState = QuizState.idle ∨ stA.quizState = QuizState.complete) ∧
        ∃ s, Event.start (fun _ => 0) = Event.start s) ∨
      ((step stA (Event.start (fun _ => 0))).quizState = QuizState.complete ∧
        stA.quizState = QuizState.active ∧ Event.start (fun _ => 0) = Event.next) ∨
      ((step stA (Event.start (fun _ => 0))).quizState = QuizState.idle ∧
        (Event.start (fun _ => 0) = Event.reset ∨
          ∃ s, Event.start (fun _ => 0) = Event.start s)) :=
  quiz_state_machine stA (Event.start (fun _ => 0)) True.intro (by decide)
